import Mathlib

/- Verification of the deterministic star-placement core of src/data/add_starfield.c.

   The canvas is modelled the way the C program stores it: a flat byte buffer in
   PNG_FORMAT_GA layout, i.e. pixel (x, y) occupies the two bytes at flat indices
   (y * W + x) * 2 (gray) and (y * W + x) * 2 + 1 (alpha).  The buffer is modelled
   as a total function from flat byte index to byte value; the bytes of the canvas
   proper are those at indices in [0, 2*W*H), and indices outside that interval
   stand for whatever memory happens to sit beyond the allocated buffer.

   C machine integers are modelled as Int (for values declared int) and as Nat
   with explicit reduction modulo 2^32 (for values declared uint32_t).  The
   little-endian 4-byte layout of int is assumed for HashPair, matching the
   platforms the program targets.  The C library rand() stream is modelled as an
   abstract sequence rng : Nat -> Nat of the successive values returned after
   srand(1); RandomInt's double-precision expression is modelled with exact
   rational arithmetic (for the arguments used here both models truncate the
   same nonnegative quotient). -/

namespace Starfield

/- RADIUS constant: minimum distance between stars and any non-transparent pixel
   (add_starfield.c line 24). -/
def RADIUS : Int := 12

/- RAND_MAX of the hosting C library (glibc value). -/
def RANDMAX : Int := 2147483647

/- Max of two ints (add_starfield.c line 31). -/
def Max (a b : Int) : Int := if a > b then a else b

/- Min of two ints (add_starfield.c line 32). -/
def Min (a b : Int) : Int := if a < b then a else b

/- RandomInt (add_starfield.c lines 35-38): (int)(((double)rand() / RAND_MAX) * (b - a) + a),
   modelled with exact arithmetic; r is the value returned by rand(). -/
def RandomInt (a b r : Int) : Int := r * (b - a) / RANDMAX + a

/- Jenkins one-at-a-time hash, per-byte step (add_starfield.c lines 48-53),
   on uint32_t with wraparound modulo 2^32. -/
def hashByte (h b : Nat) : Nat :=
  let h1 := (h + b) % 4294967296
  let h2 := (h1 + h1 * 1024) % 4294967296
  h2 ^^^ (h2 / 64)

/- Jenkins one-at-a-time hash (add_starfield.c lines 43-58). -/
def Hash (bytes : List Nat) : Nat :=
  let h := bytes.foldl hashByte 0
  let h1 := (h + h * 8) % 4294967296
  let h2 := h1 ^^^ (h1 / 2048)
  (h2 + h2 * 32768) % 4294967296

/- Little-endian byte image of a C int (two's complement, sizeof(int) = 4). -/
def intBytes (v : Int) : List Nat :=
  let n := (v % 4294967296).toNat
  [n % 256, n / 256 % 256, n / 65536 % 256, n / 16777216 % 256]

/- HashPair (add_starfield.c lines 61-68): hash of the byte images of x and y. -/
def HashPair (x y : Int) : Nat := Hash (intBytes x ++ intBytes y)

/- IsStarLocation (add_starfield.c lines 73-76). -/
def IsStarLocation (x y : Int) : Bool := HashPair x y &&& 0x11111 == 0

/- List of the integers a, a+1, ..., b (empty when b < a); models an int for-loop
   running from a to b inclusive. -/
def intRange (a b : Int) : List Int :=
  (List.range (b + 1 - a).toNat).map fun k : Nat => a + (k : Int)

/- Coordinates (ix, iy) inspected by the loops of IsEmptyRegion
   (add_starfield.c lines 84-91): iy runs from Max(y-RADIUS,0) to
   Min(y+RADIUS, height) inclusive, ix from Max(x-RADIUS,0) to
   Min(x+RADIUS, width) inclusive, and pairs farther than RADIUS are skipped. -/
def scannedCoords (W H x y : Int) : List (Int × Int) :=
  (intRange (Max (y - RADIUS) 0) (Min (y + RADIUS) H)).flatMap fun iy =>
    (intRange (Max (x - RADIUS) 0) (Min (x + RADIUS) W)).filterMap fun ix =>
      if (x - ix) * (x - ix) + (y - iy) * (y - iy) > RADIUS * RADIUS then none
      else some (ix, iy)

/- IsEmptyRegion (add_starfield.c lines 80-99): true iff every inspected pixel
   has alpha byte zero; the alpha of (ix, iy) is read at flat byte index
   (iy * width + ix) * 2 + 1. -/
def IsEmptyRegion (W H : Int) (px : Int → Nat) (x y : Int) : Bool :=
  (scannedCoords W H x y).all fun c => px ((c.2 * W + c.1) * 2 + 1) == 0

/- DrawPixel (add_starfield.c lines 102-112): writes gray 0 and alpha 0xff at
   (x, y) when 0 <= x < width and 0 <= y < height, otherwise does nothing. -/
def DrawPixel (W H : Int) (px : Int → Nat) (x y : Int) (i : Int) : Nat :=
  if 0 ≤ x ∧ x < W ∧ 0 ≤ y ∧ y < H then
    if i = (y * W + x) * 2 then 0
    else if i = (y * W + x) * 2 + 1 then 255
    else px i
  else px i

/- XY (add_starfield.c line 27). -/
structure XY where
  x : Int
  y : Int
deriving DecidableEq, Repr

/- Initial candidate array in row-major order (add_starfield.c lines 186-193). -/
def initStars (W H : Int) : List XY :=
  (List.range H.toNat).flatMap fun y =>
    (List.range W.toNat).map fun x => ⟨Int.ofNat x, Int.ofNat y⟩

/- Swap of two array slots (add_starfield.c lines 200-205): the value at j is
   stored into slot i and the saved old value at i into slot j. -/
def swapL (l : List XY) (i j : Nat) : List XY :=
  (l.set i (l.getD j ⟨0, 0⟩)).set j (l.getD i ⟨0, 0⟩)

/- Fisher-Yates loop body (add_starfield.c lines 197-206): i is the current
   loop index, k counts the rand() calls consumed so far. -/
def fyAux (rng : Nat → Nat) : List XY → Nat → Nat → List XY
  | arr, 0, _ => arr
  | arr, i + 1, k =>
      fyAux rng (swapL arr (i + 1) ((RandomInt 0 ((i : Int) + 1) (rng k)).toNat)) i (k + 1)

/- Fisher-Yates shuffle with deterministic seed (add_starfield.c lines 195-206);
   rng is the stream of rand() values after srand(1). -/
def shuffle (rng : Nat → Nat) (arr : List XY) : List XY :=
  fyAux rng arr (arr.length - 1) 0

/- State of the candidate-visiting loop: the candidate array (mutated in place),
   the accepted-star count, and the pixel buffer. -/
structure GenState where
  arr : List XY
  count : Nat
  px : Int → Nat

/- One iteration of the candidate loop (add_starfield.c lines 209-242): read the
   candidate at index i, and on acceptance write it back at index count,
   increment count, and mark the pixel opaque. -/
def genStep (W H : Int) (s : GenState) (i : Nat) : GenState :=
  if IsStarLocation (s.arr.getD i ⟨0, 0⟩).x (s.arr.getD i ⟨0, 0⟩).y &&
      IsEmptyRegion W H s.px (s.arr.getD i ⟨0, 0⟩).x (s.arr.getD i ⟨0, 0⟩).y then
    { arr := s.arr.set s.count (s.arr.getD i ⟨0, 0⟩), count := s.count + 1,
      px := DrawPixel W H s.px (s.arr.getD i ⟨0, 0⟩).x (s.arr.getD i ⟨0, 0⟩).y }
  else s

/- State after the first n iterations of the candidate loop. -/
def genUpTo (W H : Int) (s : GenState) (n : Nat) : GenState :=
  (List.range n).foldl (genStep W H) s

/- Star generation (add_starfield.c lines 178-242): shuffle the row-major
   coordinate list, run the candidate loop over all of it, and return the
   compacted registry (first count slots of the array) with the final buffer. -/
def GenerateStars (W H : Int) (px : Int → Nat) (rng : Nat → Nat) :
    List XY × (Int → Nat) :=
  ((genUpTo W H ⟨shuffle rng (initStars W H), 0, px⟩ (shuffle rng (initStars W H)).length).arr.take
     (genUpTo W H ⟨shuffle rng (initStars W H), 0, px⟩ (shuffle rng (initStars W H)).length).count,
   (genUpTo W H ⟨shuffle rng (initStars W H), 0, px⟩ (shuffle rng (initStars W H)).length).px)

/- Append-model step for the same loop: accepted candidates are appended to a
   fresh list instead of compacted in place; the acceptance test and the canvas
   mutation are identical to genStep. -/
def acceptStep (W H : Int) (s : List XY × (Int → Nat)) (c : XY) :
    List XY × (Int → Nat) :=
  if IsStarLocation c.x c.y && IsEmptyRegion W H s.2 c.x c.y then
    (s.1 ++ [c], DrawPixel W H s.2 c.x c.y)
  else s

/- Append-model generation, for comparison with the in-place compaction. -/
def GenerateStarsAppend (W H : Int) (px : Int → Nat) (rng : Nat → Nat) :
    List XY × (Int → Nat) :=
  (shuffle rng (initStars W H)).foldl (acceptStep W H) ([], px)

/- Animation phase (add_starfield.c line 258):
   j = (((HashPair(x, y) >> 4) + frame) / 5) % 4, computed in uint32_t
   arithmetic; frame (an int) is converted to uint32_t modulo 2^32. -/
def phase (x y frame : Int) : Nat :=
  (HashPair x y / 16 + (frame % 4294967296).toNat) % 4294967296 / 5 % 4

/- Byte writes performed by one DrawPixel call, as (flat index, value) pairs in
   store order (add_starfield.c lines 102-112). -/
def DrawPixelWrites (W H x y : Int) : List (Int × Nat) :=
  if 0 ≤ x ∧ x < W ∧ 0 ≤ y ∧ y < H then
    [((y * W + x) * 2, 0), ((y * W + x) * 2 + 1, 255)]
  else []

/- Byte writes performed for one star by the render loop body
   (add_starfield.c lines 258-271): phase 0 clears the two bytes of the center
   pixel (the memset), phases 1 and 3 write nothing, and phase 2 draws the four
   cardinal neighbors left, right, up, down in that order. -/
def renderStarWrites (W H frame : Int) (s : XY) : List (Int × Nat) :=
  if phase s.x s.y frame = 0 then
    [((s.y * W + s.x) * 2, 0), ((s.y * W + s.x) * 2 + 1, 0)]
  else if phase s.x s.y frame = 1 ∨ phase s.x s.y frame = 3 then []
  else
    DrawPixelWrites W H (s.x - 1) s.y ++ DrawPixelWrites W H (s.x + 1) s.y ++
    DrawPixelWrites W H s.x (s.y - 1) ++ DrawPixelWrites W H s.x (s.y + 1)

/- Byte writes of the whole render loop (add_starfield.c lines 244-272), in
   program order over the registry. -/
def renderFrameWrites (W H frame : Int) (stars : List XY) : List (Int × Nat) :=
  stars.flatMap (renderStarWrites W H frame)

/- Application of a sequence of byte stores to the buffer, in order. -/
def applyWrites (px : Int → Nat) (ws : List (Int × Nat)) : Int → Nat :=
  ws.foldl (fun f w => fun i => if i = w.1 then w.2 else f i) px

/- Frame renderer (add_starfield.c lines 244-272): the buffer after performing
   every byte store of the render loop. -/
def RenderFrame (W H frame : Int) (stars : List XY) (px : Int → Nat) : Int → Nat :=
  applyWrites px (renderFrameWrites W H frame stars)

/- Star coordinate lying inside the canvas. -/
def InBounds (W H : Int) (s : XY) : Prop :=
  0 ≤ s.x ∧ s.x < W ∧ 0 ≤ s.y ∧ s.y < H

instance (W H : Int) (s : XY) : Decidable (InBounds W H s) := by
  unfold InBounds; infer_instance

/- Flat byte index belonging to one of the two bytes of an in-bounds pixel. -/
def PixelIdxInBounds (W H i : Int) : Prop :=
  ∃ x y : Int, 0 ≤ x ∧ x < W ∧ 0 ≤ y ∧ y < H ∧
    (i = (y * W + x) * 2 ∨ i = (y * W + x) * 2 + 1)

/- Rand stream consisting of zeros only, used for concrete runs. -/
def rngZero : Nat → Nat := fun _ => 0

/- Buffer whose 32 canvas bytes (a fully transparent 4 x 4 canvas) are zero
   while every byte beyond the buffer reads as 255. -/
def pxGarbage : Int → Nat := fun i => if 0 ≤ i ∧ i < 32 then 0 else 255

/- Value of the buffer after a sequence of stores: the value of the last store
   to the index if there is one, the old buffer value otherwise. -/
lemma applyWrites_eq_find (ws : List (Int × Nat)) (px : Int → Nat) (i : Int) :
    applyWrites px ws i =
      match ws.reverse.find? (fun w => w.1 == i) with
      | some w => w.2
      | none => px i := by
  induction ws generalizing px with
  | nil => rfl
  | cons w ws ih =>
    show applyWrites (fun j => if j = w.1 then w.2 else px j) ws i = _
    rw [ih, List.reverse_cons, List.find?_append]
    cases hfind : ws.reverse.find? (fun v => v.1 == i) with
    | some v => simp [hfind, Option.or]
    | none =>
      simp only [hfind, Option.or]
      by_cases hwi : w.1 = i
      · have hb : (w.1 == i) = true := by simpa using hwi
        simp [List.find?, hb, hwi]
      · have hb : (w.1 == i) = false := by simpa using hwi
        simp [List.find?, hb, Ne.symm hwi]

/- Storing the same write sequence twice is the same as storing it once. -/
lemma applyWrites_idem (px : Int → Nat) (ws : List (Int × Nat)) :
    applyWrites (applyWrites px ws) ws = applyWrites px ws := by
  funext i
  rw [applyWrites_eq_find, applyWrites_eq_find]
  cases h : ws.reverse.find? (fun w => w.1 == i) with
  | some w => simp [h]
  | none => simp only [h]

/-- C7: rendering is idempotent in the frame number — for every canvas, every
Star Registry and every frame number f, calling the frame renderer twice in a
row with the same f leaves the canvas in the same state as calling it once. -/
theorem renderFrame_idempotent (W H frame : Int) (stars : List XY) (px : Int → Nat) :
    RenderFrame W H frame stars (RenderFrame W H frame stars px) =
      RenderFrame W H frame stars px :=
  applyWrites_idem px (renderFrameWrites W H frame stars)

/-- C3 (counterexample): the frame renderer does not fully determine the state
of a star's center pixel from (registry, frame number) alone.  For the star
(0, 0) at frame 5 the phase is 1 (plain), the loop body writes nothing, and the
center's alpha byte (flat index 1) keeps whatever value the prior canvas had:
two prior contents 0 and 7 yield two different post-render states. -/
theorem renderFrame_not_content_free :
    RenderFrame 10 10 5 [⟨0, 0⟩] (fun _ => 0) 1 = 0 ∧
    RenderFrame 10 10 5 [⟨0, 0⟩] (fun _ => 7) 1 = 7 ∧
    RenderFrame 10 10 5 [⟨0, 0⟩] (fun _ => 0) 1 ≠
      RenderFrame 10 10 5 [⟨0, 0⟩] (fun _ => 7) 1 :=
  ⟨rfl, rfl, by decide⟩

/-- C3 (amended): each call to the frame renderer determines, from
(Star Registry, frame number) alone, the values of exactly the pixels it
writes — any pixel whose flat index occurs in the render write sequence gets
the same post-render value for every prior canvas content — while a pixel it
does not write retains its prior content. -/
theorem renderFrame_determines_written (W H frame : Int) (stars : List XY)
    (px px' : Int → Nat) (i : Int) :
    (i ∈ (renderFrameWrites W H frame stars).map Prod.fst →
        RenderFrame W H frame stars px i = RenderFrame W H frame stars px' i) ∧
    (i ∉ (renderFrameWrites W H frame stars).map Prod.fst →
        RenderFrame W H frame stars px i = px i) := by
  constructor
  · intro hm
    rw [RenderFrame, RenderFrame, applyWrites_eq_find, applyWrites_eq_find]
    cases h : (renderFrameWrites W H frame stars).reverse.find? (fun w => w.1 == i) with
    | some w => rfl
    | none =>
      rw [List.find?_eq_none] at h
      obtain ⟨w, hw, hwi⟩ := List.mem_map.mp hm
      exact absurd (by simpa using hwi) (h w (List.mem_reverse.mpr hw))
  · intro hm
    rw [RenderFrame, applyWrites_eq_find]
    cases h : (renderFrameWrites W H frame stars).reverse.find? (fun w => w.1 == i) with
    | some w =>
      have hwmem : w ∈ (renderFrameWrites W H frame stars).reverse := List.mem_of_find?_eq_some h
      have hwp := List.find?_some h
      exact absurd (List.mem_map.mpr ⟨w, List.mem_reverse.mp hwmem, by simpa using hwp⟩) hm
    | none => rfl

/-- C3 (witness for the amended theorem): concrete instance — for the star
(0, 0) at frame 0 (phase 0, erase), the alpha byte of the center (flat index 1)
is written, and the renderer gives it the same value for two different prior
canvas contents. -/
theorem renderFrame_determines_written_witness :
    ((1 : Int) ∈ (renderFrameWrites 10 10 0 [⟨0, 0⟩]).map Prod.fst) ∧
    RenderFrame 10 10 0 [⟨0, 0⟩] (fun _ => 3) 1 =
      RenderFrame 10 10 0 [⟨0, 0⟩] (fun _ => 9) 1 :=
  ⟨by decide,
   (renderFrame_determines_written 10 10 0 [⟨0, 0⟩] (fun _ => 3) (fun _ => 9) 1).1 (by decide)⟩

/- Hash values are reduced modulo 2^32. -/
lemma Hash_lt (bs : List Nat) : Hash bs < 4294967296 := by
  unfold Hash
  exact Nat.mod_lt _ (by norm_num)

/- HashPair values are 32-bit. -/
lemma HashPair_lt (x y : Int) : HashPair x y < 4294967296 := Hash_lt _

/- Evaluation of the phase formula without the 2^32 wraparound, valid whenever
   the frame number is a nonnegative int small enough that the uint32_t sum
   (HashPair(x,y) >> 4) + frame does not wrap. -/
lemma phase_eval (x y f : Int) (h0 : 0 ≤ f) (h1 : f < 4026531840) :
    phase x y f = (HashPair x y / 16 + f.toNat) / 5 % 4 := by
  unfold phase
  have hp : HashPair x y < 4294967296 := HashPair_lt x y
  have hm : f % 4294967296 = f := Int.emod_eq_of_lt h0 (by omega)
  rw [hm]
  have hs : HashPair x y / 16 + f.toNat < 4294967296 := by omega
  rw [Nat.mod_eq_of_lt hs]

/-- C4: for every star coordinate (x, y) and every frame number f representable
as a nonnegative C int, the animation phase equals
(((HashPair(x,y) >> 4) + f) / 5) % 4 with integer floor division; as a function
of f it is periodic with period 20, it advances by one phase (mod 4, i.e.
erase 0 → plain 1 → glitter 2 → plain 3 and around) every 5 frames, and
between two consecutive frames it stays constant except exactly at the
5-frame block boundaries — so each phase lasts 5 consecutive frames. -/
theorem phase_periodic (x y f : Int) (h0 : 0 ≤ f) (h1 : f < 2147483648) :
    phase x y f = (HashPair x y / 16 + f.toNat) / 5 % 4 ∧
    phase x y (f + 20) = phase x y f ∧
    phase x y (f + 5) = (phase x y f + 1) % 4 ∧
    phase x y (f + 1) =
      (if (HashPair x y / 16 + f.toNat + 1) % 5 = 0 then (phase x y f + 1) % 4
       else phase x y f) := by
  have e0 : phase x y f = (HashPair x y / 16 + f.toNat) / 5 % 4 :=
    phase_eval x y f h0 (by omega)
  have e20 : phase x y (f + 20) = (HashPair x y / 16 + (f + 20).toNat) / 5 % 4 :=
    phase_eval x y (f + 20) (by omega) (by omega)
  have e5 : phase x y (f + 5) = (HashPair x y / 16 + (f + 5).toNat) / 5 % 4 :=
    phase_eval x y (f + 5) (by omega) (by omega)
  have e1 : phase x y (f + 1) = (HashPair x y / 16 + (f + 1).toNat) / 5 % 4 :=
    phase_eval x y (f + 1) (by omega) (by omega)
  refine ⟨e0, ?_, ?_, ?_⟩
  · rw [e20, e0]; omega
  · rw [e5, e0]; omega
  · rw [e1, e0]
    by_cases hb : (HashPair x y / 16 + f.toNat + 1) % 5 = 0
    · simp only [hb, if_pos]; omega
    · simp only [hb, if_false]; omega

/-- C4 (witness): the phase relations instantiated for the star (0, 0) at
frame 3. -/
theorem phase_periodic_witness :
    ((0 : Int) ≤ 3 ∧ (3 : Int) < 2147483648) ∧
    (phase 0 0 3 = (HashPair 0 0 / 16 + (3 : Int).toNat) / 5 % 4 ∧
     phase 0 0 (3 + 20) = phase 0 0 3 ∧
     phase 0 0 (3 + 5) = (phase 0 0 3 + 1) % 4 ∧
     phase 0 0 (3 + 1) =
       (if (HashPair 0 0 / 16 + (3 : Int).toNat + 1) % 5 = 0 then (phase 0 0 3 + 1) % 4
        else phase 0 0 3)) :=
  ⟨⟨by decide, by decide⟩, phase_periodic 0 0 3 (by decide) (by decide)⟩

/-- C1: contrary to the claim, the proximity test does not clip its neighborhood
scan to [0,W)×[0,H).  Its loop bounds are Min(y+RADIUS, height) and
Min(x+RADIUS, width) inclusive, so for the eligible candidate (0, 0) on a
10×10 canvas the scan includes the coordinate (0, 10) whose row index equals
the height; its alpha is read at flat byte index (10*10+0)*2+1 = 201, which is
past the end of the 2*10*10 = 200-byte pixel buffer. -/
theorem isEmptyRegion_scans_out_of_bounds :
    IsStarLocation 0 0 = true ∧
    ((0 : Int), (10 : Int)) ∈ scannedCoords 10 10 0 0 ∧
    ¬ ((10 : Int) < 10) ∧
    2 * (10 * 10) ≤ (((10 : Int) * 10 + 0) * 2 + 1) := by decide

set_option maxRecDepth 8000 in
/-- C6: contrary to the claim, generation is not determined by the canvas bits
and the seed alone.  Two 4×4 canvases whose 32 buffer bytes are identical
(all transparent) but which differ in the memory beyond the buffer — all-zero
bytes versus all-255 bytes past index 31 — produce different Star Registries
under the same rand() stream, because the proximity scan reads past the
buffer. -/
theorem generate_reads_past_buffer :
    ((intRange 0 31).all fun i => (fun _ => (0 : Nat)) i == pxGarbage i) = true ∧
    (GenerateStars 4 4 (fun _ => 0) rngZero).1 = [⟨0, 0⟩] ∧
    (GenerateStars 4 4 pxGarbage rngZero).1 = [] ∧
    (GenerateStars 4 4 (fun _ => 0) rngZero).1 ≠
      (GenerateStars 4 4 pxGarbage rngZero).1 :=
  ⟨by decide, by decide, by decide, by decide⟩

/- Writes of a single bounds-checked DrawPixel call target the two bytes of its
   pixel, and occur only when the pixel is in bounds. -/
lemma mem_DrawPixelWrites (W H x y : Int) (w : Int × Nat)
    (hw : w ∈ DrawPixelWrites W H x y) :
    (0 ≤ x ∧ x < W ∧ 0 ≤ y ∧ y < H) ∧
      (w.1 = (y * W + x) * 2 ∨ w.1 = (y * W + x) * 2 + 1) := by
  unfold DrawPixelWrites at hw
  split at hw
  · rename_i h
    simp only [List.mem_cons, List.not_mem_nil, or_false] at hw
    rcases hw with rfl | rfl
    · exact ⟨h, Or.inl rfl⟩
    · exact ⟨h, Or.inr rfl⟩
  · cases hw

/- Flat indices of in-bounds pixels lie inside the 2*W*H-byte buffer. -/
lemma pixelIdx_bounds (W H i : Int) (h : PixelIdxInBounds W H i) :
    0 ≤ i ∧ i < 2 * (W * H) := by
  obtain ⟨x, y, hx0, hxW, hy0, hyH, hi⟩ := h
  have hyW : y * W ≤ (H - 1) * W := mul_le_mul_of_nonneg_right (by omega) (by omega)
  have hyW0 : 0 ≤ y * W := mul_nonneg hy0 (by omega)
  have hHW : (H - 1) * W = W * H - W := by ring
  rcases hi with rfl | rfl <;> constructor <;> linarith

/-- C5: the frame renderer never writes outside the canvas.  For every registry
whose stars all lie inside [0,W)×[0,H), every frame number and every byte store
the render loop performs, the written flat index belongs to one of the two
bytes of an in-bounds pixel, hence lies inside the 2·W·H-byte pixel buffer:
every neighbor draw is bounds-checked (DrawPixelWrites is empty out of bounds)
and the phase-0 center erase stays in bounds because the star does. -/
theorem renderFrame_writes_in_bounds (W H frame : Int) (stars : List XY)
    (hs : (stars.all fun s => decide (InBounds W H s)) = true) :
    ∀ w ∈ renderFrameWrites W H frame stars,
      PixelIdxInBounds W H w.1 ∧ 0 ≤ w.1 ∧ w.1 < 2 * (W * H) := by
  intro w hw
  unfold renderFrameWrites at hw
  rw [List.mem_flatMap] at hw
  obtain ⟨s, hsmem, hw⟩ := hw
  have hsb : InBounds W H s := of_decide_eq_true (List.all_eq_true.mp hs s hsmem)
  obtain ⟨hx0, hxW, hy0, hyH⟩ := hsb
  suffices h : PixelIdxInBounds W H w.1 from ⟨h, pixelIdx_bounds W H w.1 h⟩
  unfold renderStarWrites at hw
  split at hw
  · simp only [List.mem_cons, List.not_mem_nil, or_false] at hw
    rcases hw with rfl | rfl
    · exact ⟨s.x, s.y, hx0, hxW, hy0, hyH, Or.inl rfl⟩
    · exact ⟨s.x, s.y, hx0, hxW, hy0, hyH, Or.inr rfl⟩
  · split at hw
    · cases hw
    · simp only [List.mem_append] at hw
      rcases hw with ((hw | hw) | hw) | hw <;>
        · obtain ⟨hin, hor⟩ := mem_DrawPixelWrites _ _ _ _ _ hw
          exact ⟨_, _, hin.1, hin.2.1, hin.2.2.1, hin.2.2.2, hor⟩

/-- C5 (witness): concrete instance for the corner star (0, 0) on a 10×10
canvas at frame 0 — the first write of the render loop (the center erase)
targets an in-bounds pixel byte. -/
theorem renderFrame_writes_in_bounds_witness :
    (([(⟨0, 0⟩ : XY)].all fun s => decide (InBounds 10 10 s)) = true ∧
      ((0 : Int), (0 : Nat)) ∈ renderFrameWrites 10 10 0 [⟨0, 0⟩]) ∧
    (PixelIdxInBounds 10 10 ((0 : Int), (0 : Nat)).1 ∧
      0 ≤ ((0 : Int), (0 : Nat)).1 ∧ ((0 : Int), (0 : Nat)).1 < 2 * (10 * 10)) :=
  ⟨⟨by decide, by decide⟩,
   renderFrame_writes_in_bounds 10 10 0 [⟨0, 0⟩] (by decide) ((0 : Int), (0 : Nat)) (by decide)⟩

/- One unrolling of the candidate loop. -/
lemma genUpTo_succ (W H : Int) (s : GenState) (n : Nat) :
    genUpTo W H s (n + 1) = genStep W H (genUpTo W H s n) n := by
  unfold genUpTo
  rw [List.range_succ, List.foldl_append]
  rfl

/- When every candidate fails the combined eligibility-and-isolation test on
   the initial buffer, the candidate loop leaves its state untouched. -/
lemma genUpTo_id (W H : Int) (arr : List XY) (px : Int → Nat)
    (h : ∀ c ∈ arr, (IsStarLocation c.x c.y && IsEmptyRegion W H px c.x c.y) = false) :
    ∀ n, n ≤ arr.length → genUpTo W H ⟨arr, 0, px⟩ n = ⟨arr, 0, px⟩ := by
  intro n
  induction n with
  | zero => intro _; rfl
  | succ n ih =>
    intro hn
    rw [genUpTo_succ, ih (by omega)]
    have hlt : n < arr.length := hn
    have hmem : arr.getD n ⟨0, 0⟩ ∈ arr := by
      rw [List.getD_eq_getElem arr ⟨0, 0⟩ hlt]
      exact List.getElem_mem hlt
    unfold genStep
    simp only [h _ hmem, Bool.false_eq_true, if_false]

/-- C9: when no candidate passes both the eligibility hash test and the
isolation test on the input canvas, generation returns an empty Star Registry
and leaves the pixel buffer unmutated (and, the generation being a total
function, no error is involved). -/
theorem generate_empty_when_no_star_fits (W H : Int) (px : Int → Nat) (rng : Nat → Nat)
    (h : ((shuffle rng (initStars W H)).all fun c =>
        !(IsStarLocation c.x c.y && IsEmptyRegion W H px c.x c.y)) = true) :
    (GenerateStars W H px rng).1 = [] ∧ (GenerateStars W H px rng).2 = px := by
  have h' : ∀ c ∈ shuffle rng (initStars W H),
      (IsStarLocation c.x c.y && IsEmptyRegion W H px c.x c.y) = false := by
    intro c hc
    have h2 := List.all_eq_true.mp h c hc
    cases hb : (IsStarLocation c.x c.y && IsEmptyRegion W H px c.x c.y)
    · rfl
    · rw [hb] at h2
      simp at h2
  unfold GenerateStars
  rw [genUpTo_id W H _ px h' _ le_rfl]
  exact ⟨rfl, rfl⟩

set_option maxRecDepth 8000 in
/-- C9 (witness): on a fully opaque 4×4 canvas no candidate passes the
isolation test, and generation returns the empty registry. -/
theorem generate_empty_when_no_star_fits_witness :
    ((shuffle rngZero (initStars 4 4)).all fun c =>
        !(IsStarLocation c.x c.y && IsEmptyRegion 4 4 (fun _ => 255) c.x c.y)) = true ∧
    (GenerateStars 4 4 (fun _ => 255) rngZero).1 = [] :=
  ⟨by decide, (generate_empty_when_no_star_fits 4 4 (fun _ => 255) rngZero (by decide)).1⟩

/- Rand values in [0, RAND_MAX] produce swap indices in [0, i], the property
   the Fisher-Yates pass relies on. -/
lemma RandomInt_range (i : Nat) (r : Int) (h0 : 0 ≤ r) (h1 : r ≤ RANDMAX) :
    0 ≤ RandomInt 0 (i : Int) r ∧ RandomInt 0 (i : Int) r ≤ (i : Int) := by
  unfold RandomInt
  rw [sub_zero, add_zero]
  constructor
  · exact Int.ediv_nonneg (mul_nonneg h0 (Int.ofNat_nonneg i)) (by norm_num [RANDMAX])
  · calc r * (i : Int) / RANDMAX
        ≤ RANDMAX * (i : Int) / RANDMAX := by
          apply Int.ediv_le_ediv (by norm_num [RANDMAX])
          exact mul_le_mul_of_nonneg_right h1 (Int.ofNat_nonneg i)
      _ = (i : Int) := Int.mul_ediv_cancel_left _ (by norm_num [RANDMAX])

/- Swapping two slots preserves length. -/
lemma swapL_length (l : List XY) (i j : Nat) : (swapL l i j).length = l.length := by
  unfold swapL
  simp

/- Swapping two in-range slots preserves element counts. -/
lemma count_swapL (l : List XY) (i j : Nat) (hi : i < l.length) (hj : j < l.length)
    (a : XY) : (swapL l i j).count a = l.count a := by
  unfold swapL
  have hdj : l.getD j ⟨0, 0⟩ = l[j] := List.getD_eq_getElem l ⟨0, 0⟩ hj
  have hdi : l.getD i ⟨0, 0⟩ = l[i] := List.getD_eq_getElem l ⟨0, 0⟩ hi
  rw [hdj, hdi]
  have hj' : j < (l.set i l[j]).length := by simpa using hj
  rw [List.count_set _ _ _ _ hj', List.count_set _ _ _ _ hi]
  have hjj : (l.set i l[j])[j] = l[j] := by
    rcases eq_or_ne i j with rfl | hne
    · exact List.getElem_set_self _
    · exact List.getElem_set_ne hne _
  rw [hjj]
  have hbi : (if (l[i] == a) = true then 1 else 0) ≤ l.count a := by
    split
    · rename_i hba
      have hia : l[i] = a := by simpa using hba
      exact List.count_pos_iff.mpr (hia ▸ List.getElem_mem hi)
    · exact Nat.zero_le _
  omega

/- Swapping two in-range slots is a permutation. -/
lemma swapL_perm (l : List XY) (i j : Nat) (hi : i < l.length) (hj : j < l.length) :
    (swapL l i j).Perm l :=
  List.perm_iff_count.mpr fun a => count_swapL l i j hi hj a

/- The Fisher-Yates loop permutes the array, for any rand stream bounded by
   RAND_MAX. -/
lemma fyAux_perm (rng : Nat → Nat) (hr : ∀ n, (rng n : Int) ≤ RANDMAX) :
    ∀ (i k : Nat) (arr : List XY), i < arr.length → (fyAux rng arr i k).Perm arr := by
  intro i
  induction i with
  | zero => intro k arr _; exact List.Perm.refl arr
  | succ i ih =>
    intro k arr hlen
    have hrange := RandomInt_range (i + 1) (rng k) (Int.ofNat_nonneg _) (hr k)
    have hjle : (RandomInt 0 ((i : Int) + 1) (rng k)).toNat ≤ i + 1 := by
      rw [Int.toNat_le]
      exact_mod_cast hrange.2
    have hjlt : (RandomInt 0 ((i : Int) + 1) (rng k)).toNat < arr.length := by omega
    have hperm := swapL_perm arr (i + 1) ((RandomInt 0 ((i : Int) + 1) (rng k)).toNat) hlen hjlt
    have hlen' : i < (swapL arr (i + 1) ((RandomInt 0 ((i : Int) + 1) (rng k)).toNat)).length := by
      rw [swapL_length]; omega
    exact (ih (k + 1) _ hlen').trans hperm

/- The seeded shuffle permutes its input for any rand stream bounded by
   RAND_MAX. -/
lemma shuffle_perm (rng : Nat → Nat) (hr : ∀ n, (rng n : Int) ≤ RANDMAX)
    (arr : List XY) : (shuffle rng arr).Perm arr := by
  unfold shuffle
  rcases Nat.eq_zero_or_pos arr.length with h0 | hpos
  · rw [h0]
    exact List.Perm.refl arr
  · exact fyAux_perm rng hr (arr.length - 1) 0 arr (by omega)

/- The row-major coordinate list has no duplicates. -/
lemma initStars_nodup (W H : Int) : (initStars W H).Nodup := by
  unfold initStars
  rw [List.nodup_flatMap]
  constructor
  · intro y _
    refine List.Nodup.map ?_ (List.nodup_range _)
    intro a b hab
    have h1 : (a : Int) = (b : Int) := congrArg XY.x hab
    omega
  · refine List.Pairwise.imp ?_ (List.pairwise_lt_range H.toNat)
    intro y1 y2 hlt
    simp only [Function.onFun, List.Disjoint]
    intro a ha1 ha2
    rw [List.mem_map] at ha1 ha2
    obtain ⟨x1, _, rfl⟩ := ha1
    obtain ⟨x2, _, he⟩ := ha2
    have h2 : (y2 : Int) = (y1 : Int) := congrArg XY.y he
    omega

/- Every in-bounds coordinate occurs in the row-major coordinate list. -/
lemma mem_initStars (W H x y : Int) (hx0 : 0 ≤ x) (hxW : x < W)
    (hy0 : 0 ≤ y) (hyH : y < H) : (⟨x, y⟩ : XY) ∈ initStars W H := by
  unfold initStars
  rw [List.mem_flatMap]
  refine ⟨y.toNat, by rw [List.mem_range]; omega, ?_⟩
  rw [List.mem_map]
  refine ⟨x.toNat, by rw [List.mem_range]; omega, ?_⟩
  congr 1
  · exact Int.toNat_of_nonneg hx0
  · exact Int.toNat_of_nonneg hy0

/-- C8: the deterministic shuffle produces a permutation of the W×H row-major
coordinate list — for any rand stream bounded by RAND_MAX, the shuffled list is
a permutation of the row-major list, every in-bounds coordinate appears in it
exactly once, and each swap index drawn by the random source lies within
[0, i]. -/
theorem shuffle_is_permutation (W H : Int) (rng : Nat → Nat)
    (hr : ∀ n, (rng n : Int) ≤ RANDMAX) :
    (shuffle rng (initStars W H)).Perm (initStars W H) ∧
    (∀ x y : Int, 0 ≤ x → x < W → 0 ≤ y → y < H →
        (shuffle rng (initStars W H)).count ⟨x, y⟩ = 1) ∧
    (∀ (i : Nat) (r : Int), 0 ≤ r → r ≤ RANDMAX →
        0 ≤ RandomInt 0 (i : Int) r ∧ RandomInt 0 (i : Int) r ≤ (i : Int)) := by
  have hperm := shuffle_perm rng hr (initStars W H)
  refine ⟨hperm, ?_, fun i r h0 h1 => RandomInt_range i r h0 h1⟩
  intro x y hx0 hxW hy0 hyH
  rw [hperm.count_eq]
  exact List.count_eq_one_of_mem (initStars_nodup W H) (mem_initStars W H x y hx0 hxW hy0 hyH)

/-- C8 (witness): on a 3×3 canvas with the all-zero rand stream, the shuffled
list contains the coordinate (1, 2) exactly once. -/
theorem shuffle_is_permutation_witness :
    (rngZero 0 : Int) ≤ RANDMAX ∧
    (shuffle rngZero (initStars 3 3)).count ⟨1, 2⟩ = 1 :=
  ⟨by decide,
   (shuffle_is_permutation 3 3 rngZero (fun _ => by norm_num [rngZero, RANDMAX])).2.1 1 2
     (by decide) (by decide) (by decide) (by decide)⟩

/- Master invariant of the candidate loop: after n iterations the accepted
   count is at most n, the array length is unchanged, the slots at indices >= n
   (the candidates not yet visited) still hold the shuffled candidates, and the
   first count slots together with the buffer coincide with the append-model
   fold over the first n candidates. -/
lemma genMaster (W H : Int) (px : Int → Nat) (sh : List XY) :
    ∀ n, n ≤ sh.length →
      (genUpTo W H ⟨sh, 0, px⟩ n).count ≤ n ∧
      (genUpTo W H ⟨sh, 0, px⟩ n).arr.length = sh.length ∧
      (∀ k, n ≤ k → (genUpTo W H ⟨sh, 0, px⟩ n).arr[k]? = sh[k]?) ∧
      (genUpTo W H ⟨sh, 0, px⟩ n).arr.take (genUpTo W H ⟨sh, 0, px⟩ n).count =
        ((sh.take n).foldl (acceptStep W H) ([], px)).1 ∧
      (genUpTo W H ⟨sh, 0, px⟩ n).px = ((sh.take n).foldl (acceptStep W H) ([], px)).2 := by
  intro n
  induction n with
  | zero =>
    intro _
    exact ⟨Nat.le_refl 0, rfl, fun k _ => rfl, rfl, rfl⟩
  | succ n ih =>
    intro hn1
    have hlt : n < sh.length := hn1
    obtain ⟨ihc, ihl, ihk, iht, ihp⟩ := ih (Nat.le_of_lt hlt)
    rw [genUpTo_succ]
    set t := genUpTo W H ⟨sh, 0, px⟩ n with ht
    have hread : t.arr.getD n ⟨0, 0⟩ = sh[n] := by
      rw [List.getD_eq_getElem?_getD, ihk n (Nat.le_refl n), List.getElem?_eq_getElem hlt]
      rfl
    have htake : sh.take (n + 1) = sh.take n ++ [sh[n]] := by
      rw [List.take_succ, List.getElem?_eq_getElem hlt]
      rfl
    rw [htake, List.foldl_append]
    set A := (sh.take n).foldl (acceptStep W H) ([], px) with hA
    simp only [List.foldl_cons, List.foldl_nil]
    unfold genStep acceptStep
    rw [hread, ← ihp]
    by_cases hcond :
        (IsStarLocation (sh[n]).x (sh[n]).y && IsEmptyRegion W H t.px (sh[n]).x (sh[n]).y) = true
    · rw [if_pos hcond, if_pos hcond]
      have hcl : t.count < t.arr.length := by rw [ihl]; omega
      refine ⟨?_, ?_, ?_, ?_, rfl⟩
      · show t.count + 1 ≤ n + 1
        omega
      · show (t.arr.set t.count (sh[n])).length = sh.length
        rw [List.length_set]; exact ihl
      · intro k hk
        show (t.arr.set t.count (sh[n]))[k]? = sh[k]?
        rw [List.getElem?_set_ne (by omega)]
        exact ihk k (by omega)
      · show (t.arr.set t.count (sh[n])).take (t.count + 1) = A.1 ++ [sh[n]]
        rw [List.take_succ]
        have h1 : (t.arr.set t.count (sh[n]))[t.count]? = some (sh[n]) :=
          List.getElem?_set_self (by simpa using hcl)
        rw [h1]
        have h2 : (t.arr.set t.count (sh[n])).take t.count = t.arr.take t.count := by
          apply List.ext_getElem?
          intro m
          rw [List.getElem?_take, List.getElem?_take]
          split
          · exact List.getElem?_set_ne (by omega)
          · rfl
        rw [h2, iht]
        rfl
    · rw [if_neg hcond, if_neg hcond]
      exact ⟨by omega, ihl, fun k hk => ihk k (by omega), iht, ihp⟩

/- The in-place compacting generation computes the same registry and buffer as
   the append-model generation. -/
lemma gen_eq_append (W H : Int) (px : Int → Nat) (rng : Nat → Nat) :
    GenerateStars W H px rng = GenerateStarsAppend W H px rng := by
  obtain ⟨-, -, -, ht, hp⟩ :=
    genMaster W H px (shuffle rng (initStars W H)) (shuffle rng (initStars W H)).length
      (Nat.le_refl _)
  rw [List.take_length] at ht hp
  unfold GenerateStars GenerateStarsAppend
  exact Prod.ext ht hp

/-- C10: safety of the in-place registry compaction — after any number n of
iterations of the candidate loop the accepted-star count is at most n, every
array slot at an index not yet visited still holds its shuffled candidate (so
writing an accepted coordinate at the accepted-count slot never overwrites an
unvisited candidate), and the final registry equals exactly the list built by
the append model: the subsequence of shuffled candidates that were accepted, in
visit order. -/
theorem gen_inplace_compaction_safe (W H : Int) (px : Int → Nat) (rng : Nat → Nat)
    (n : Nat) (hn : n ≤ (shuffle rng (initStars W H)).length) (k : Nat) (hk : n ≤ k) :
    (genUpTo W H ⟨shuffle rng (initStars W H), 0, px⟩ n).count ≤ n ∧
    (genUpTo W H ⟨shuffle rng (initStars W H), 0, px⟩ n).arr[k]? =
      (shuffle rng (initStars W H))[k]? ∧
    (genUpTo W H ⟨shuffle rng (initStars W H), 0, px⟩ n).arr.take
        (genUpTo W H ⟨shuffle rng (initStars W H), 0, px⟩ n).count =
      (((shuffle rng (initStars W H)).take n).foldl (acceptStep W H) ([], px)).1 ∧
    (GenerateStars W H px rng).1 = (GenerateStarsAppend W H px rng).1 := by
  obtain ⟨h1, -, h3, h4, -⟩ := genMaster W H px (shuffle rng (initStars W H)) n hn
  exact ⟨h1, h3 k hk, h4, congrArg Prod.fst (gen_eq_append W H px rng)⟩

set_option maxRecDepth 8000 in
/-- C10 (witness): concrete instance after 10 of the 16 iterations on a fully
transparent 4×4 canvas. -/
theorem gen_inplace_compaction_safe_witness :
    (10 ≤ (shuffle rngZero (initStars 4 4)).length ∧ 10 ≤ 12) ∧
    ((genUpTo 4 4 ⟨shuffle rngZero (initStars 4 4), 0, fun _ => 0⟩ 10).count ≤ 10 ∧
     (genUpTo 4 4 ⟨shuffle rngZero (initStars 4 4), 0, fun _ => 0⟩ 10).arr[12]? =
       (shuffle rngZero (initStars 4 4))[12]? ∧
     (genUpTo 4 4 ⟨shuffle rngZero (initStars 4 4), 0, fun _ => 0⟩ 10).arr.take
         (genUpTo 4 4 ⟨shuffle rngZero (initStars 4 4), 0, fun _ => 0⟩ 10).count =
       (((shuffle rngZero (initStars 4 4)).take 10).foldl (acceptStep 4 4) ([], fun _ => 0)).1 ∧
     (GenerateStars 4 4 (fun _ => 0) rngZero).1 = (GenerateStarsAppend 4 4 (fun _ => 0) rngZero).1) :=
  ⟨⟨by decide, by decide⟩,
   gen_inplace_compaction_safe 4 4 (fun _ => 0) rngZero 10 (by decide) 12 (by decide)⟩

/- Membership in an inclusive integer range. -/
lemma mem_intRange {a b k : Int} : k ∈ intRange a b ↔ a ≤ k ∧ k ≤ b := by
  unfold intRange
  rw [List.mem_map]
  constructor
  · rintro ⟨m, hm, rfl⟩
    rw [List.mem_range] at hm
    omega
  · intro hk
    refine ⟨(k - a).toNat, ?_, by omega⟩
    rw [List.mem_range]
    omega

/- Every in-bounds pixel within Euclidean distance RADIUS of the candidate is
   inspected by the proximity scan. -/
lemma mem_scannedCoords (W H x y u v : Int)
    (hu0 : 0 ≤ u) (huW : u < W) (hv0 : 0 ≤ v) (hvH : v < H)
    (hdist : (x - u) * (x - u) + (y - v) * (y - v) ≤ RADIUS * RADIUS) :
    (u, v) ∈ scannedCoords W H x y := by
  have hd144 : (x - u) * (x - u) + (y - v) * (y - v) ≤ 144 := by
    simpa [RADIUS] using hdist
  have hxu1 : x - 12 ≤ u := by nlinarith [mul_self_nonneg (y - v), mul_self_nonneg (x - u - 12)]
  have hxu2 : u ≤ x + 12 := by nlinarith [mul_self_nonneg (y - v), mul_self_nonneg (x - u + 12)]
  have hyv1 : y - 12 ≤ v := by nlinarith [mul_self_nonneg (x - u), mul_self_nonneg (y - v - 12)]
  have hyv2 : v ≤ y + 12 := by nlinarith [mul_self_nonneg (x - u), mul_self_nonneg (y - v + 12)]
  unfold scannedCoords
  rw [List.mem_flatMap]
  refine ⟨v, ?_, ?_⟩
  · rw [mem_intRange]
    constructor
    · simp only [Max, RADIUS]; split <;> omega
    · simp only [Min, RADIUS]; split <;> omega
  · rw [List.mem_filterMap]
    refine ⟨u, ?_, ?_⟩
    · rw [mem_intRange]
      constructor
      · simp only [Max, RADIUS]; split <;> omega
      · simp only [Min, RADIUS]; split <;> omega
    · rw [if_neg (not_lt.mpr hdist)]

/- Marking a pixel opaque sets its own alpha byte to 255. -/
lemma DrawPixel_alpha_self (W H : Int) (px : Int → Nat) (x y : Int)
    (h : 0 ≤ x ∧ x < W ∧ 0 ≤ y ∧ y < H) :
    DrawPixel W H px x y ((y * W + x) * 2 + 1) = 255 := by
  unfold DrawPixel
  rw [if_pos h, if_neg (by omega), if_pos rfl]

/- Marking a pixel opaque never clears the alpha byte of any pixel: an alpha
   byte that held 255 still holds 255 afterwards. -/
lemma DrawPixel_alpha_keep (W H x y A : Int) (px : Int → Nat)
    (h255 : px (A * 2 + 1) = 255) :
    DrawPixel W H px x y (A * 2 + 1) = 255 := by
  unfold DrawPixel
  split
  · rw [if_neg (by omega)]
    split
    · rfl
    · exact h255
  · exact h255

/- Elements of a swap are elements of the original list, or the default value
   read by an out-of-range access. -/
lemma mem_swapL (l : List XY) (i j : Nat) (c : XY) (hc : c ∈ swapL l i j) :
    c ∈ l ∨ c = ⟨0, 0⟩ := by
  unfold swapL at hc
  rcases List.mem_or_eq_of_mem_set hc with hc2 | hc2
  · rcases List.mem_or_eq_of_mem_set hc2 with hc3 | hc3
    · exact Or.inl hc3
    · subst hc3
      by_cases hj : j < l.length
      · rw [List.getD_eq_getElem l ⟨0, 0⟩ hj]
        exact Or.inl (List.getElem_mem hj)
      · rw [List.getD_eq_default l ⟨0, 0⟩ (by omega)]
        exact Or.inr rfl
  · subst hc2
    by_cases hi : i < l.length
    · rw [List.getD_eq_getElem l ⟨0, 0⟩ hi]
      exact Or.inl (List.getElem_mem hi)
    · rw [List.getD_eq_default l ⟨0, 0⟩ (by omega)]
      exact Or.inr rfl

/- Elements of the Fisher-Yates result come from the input array (or are the
   default value of an out-of-range read). -/
lemma mem_fyAux (rng : Nat → Nat) :
    ∀ (i k : Nat) (arr : List XY) (c : XY), c ∈ fyAux rng arr i k → c ∈ arr ∨ c = ⟨0, 0⟩ := by
  intro i
  induction i with
  | zero => intro k arr c hc; exact Or.inl hc
  | succ i ih =>
    intro k arr c hc
    rcases ih (k + 1) _ c hc with h | h
    · rcases mem_swapL _ _ _ c h with h2 | h2
      · exact Or.inl h2
      · exact Or.inr h2
    · exact Or.inr h

/- Elements of the shuffled list come from the input array (or are the default
   value of an out-of-range read). -/
lemma mem_shuffle (rng : Nat → Nat) (arr : List XY) (c : XY)
    (hc : c ∈ shuffle rng arr) : c ∈ arr ∨ c = ⟨0, 0⟩ :=
  mem_fyAux rng (arr.length - 1) 0 arr c hc

/- Members of the row-major coordinate list are in bounds. -/
lemma initStars_mem_inBounds (W H : Int) (c : XY) (hc : c ∈ initStars W H) :
    InBounds W H c := by
  unfold initStars at hc
  rw [List.mem_flatMap] at hc
  obtain ⟨y1, hy1, hc⟩ := hc
  rw [List.mem_map] at hc
  obtain ⟨x1, hx1, rfl⟩ := hc
  rw [List.mem_range] at hy1 hx1
  refine ⟨Int.ofNat_nonneg x1, ?_, Int.ofNat_nonneg y1, ?_⟩
  · show (x1 : Int) < W
    omega
  · show (y1 : Int) < H
    omega

/- A canvas with a nonpositive dimension has no coordinates at all. -/
lemma initStars_eq_nil (W H : Int) (h : W ≤ 0 ∨ H ≤ 0) : initStars W H = [] := by
  unfold initStars
  rcases h with h | h
  · have hw : W.toNat = 0 := by omega
    rw [hw]
    simp
  · have hh : H.toNat = 0 := by omega
    rw [hh]
    rfl

/- Invariant of the append-model candidate fold: when all candidates are in
   bounds, the accepted list stays in bounds, stays pairwise separated by more
   than RADIUS, and every accepted star keeps alpha byte 255 in the evolving
   buffer. -/
lemma accept_inv (W H : Int) :
    ∀ (cs : List XY) (s : List XY × (Int → Nat)),
      (∀ c ∈ cs, InBounds W H c) →
      (∀ p ∈ s.1, InBounds W H p) →
      (∀ p ∈ s.1, s.2 ((p.y * W + p.x) * 2 + 1) = 255) →
      s.1.Pairwise (fun p q => RADIUS * RADIUS <
        (p.x - q.x) * (p.x - q.x) + (p.y - q.y) * (p.y - q.y)) →
      ((∀ p ∈ (cs.foldl (acceptStep W H) s).1, InBounds W H p) ∧
       (∀ p ∈ (cs.foldl (acceptStep W H) s).1,
          (cs.foldl (acceptStep W H) s).2 ((p.y * W + p.x) * 2 + 1) = 255) ∧
       (cs.foldl (acceptStep W H) s).1.Pairwise (fun p q => RADIUS * RADIUS <
          (p.x - q.x) * (p.x - q.x) + (p.y - q.y) * (p.y - q.y))) := by
  intro cs
  induction cs with
  | nil => intro s _ h1 h2 h3; exact ⟨h1, h2, h3⟩
  | cons c cs ih =>
    intro s hcs hb ha hp
    rw [List.foldl_cons]
    have hc : InBounds W H c := hcs c (List.mem_cons_self c cs)
    have hkeep : (∀ p ∈ (acceptStep W H s c).1, InBounds W H p) ∧
        (∀ p ∈ (acceptStep W H s c).1,
           (acceptStep W H s c).2 ((p.y * W + p.x) * 2 + 1) = 255) ∧
        (acceptStep W H s c).1.Pairwise (fun p q => RADIUS * RADIUS <
           (p.x - q.x) * (p.x - q.x) + (p.y - q.y) * (p.y - q.y)) := by
      unfold acceptStep
      by_cases hcond : (IsStarLocation c.x c.y && IsEmptyRegion W H s.2 c.x c.y) = true
      · rw [if_pos hcond]
        rw [Bool.and_eq_true] at hcond
        obtain ⟨-, hreg⟩ := hcond
        refine ⟨?_, ?_, ?_⟩
        · intro p hp2
          rcases List.mem_append.mp hp2 with h | h
          · exact hb p h
          · rw [List.mem_singleton] at h
            subst h
            exact hc
        · intro p hp2
          rcases List.mem_append.mp hp2 with h | h
          · have h255 := ha p h
            exact DrawPixel_alpha_keep W H c.x c.y (p.y * W + p.x) s.2 h255
          · rw [List.mem_singleton] at h
            rw [h]
            exact DrawPixel_alpha_self W H s.2 c.x c.y hc
        · rw [List.pairwise_append]
          refine ⟨hp, List.pairwise_singleton _ _, ?_⟩
          intro p hpmem q hq
          rw [List.mem_singleton] at hq
          rw [hq]
          by_contra hle
          push_neg at hle
          have hpin := hb p hpmem
          have hd : (c.x - p.x) * (c.x - p.x) + (c.y - p.y) * (c.y - p.y) ≤
              RADIUS * RADIUS := by
            have heq : (c.x - p.x) * (c.x - p.x) + (c.y - p.y) * (c.y - p.y) =
                (p.x - c.x) * (p.x - c.x) + (p.y - c.y) * (p.y - c.y) := by ring
            rw [heq]
            exact hle
          have hmem := mem_scannedCoords W H c.x c.y p.x p.y
            hpin.1 hpin.2.1 hpin.2.2.1 hpin.2.2.2 hd
          have hall := List.all_eq_true.mp hreg _ hmem
          have h0 : s.2 ((p.y * W + p.x) * 2 + 1) = 0 := by simpa using hall
          have h255 := ha p hpmem
          omega
      · rw [if_neg hcond]
        exact ⟨hb, ha, hp⟩
    exact ih (acceptStep W H s c) (fun d hd => hcs d (List.mem_cons_of_mem c hd))
      hkeep.1 hkeep.2.1 hkeep.2.2

/-- C2: the isolation invariant — in the registry produced by any run of
generation, for every pair of accepted stars p and q with p accepted before q,
the squared Euclidean distance (p.x−q.x)² + (p.y−q.y)² strictly exceeds
RADIUS², i.e. the Euclidean distance between p and q is strictly greater than
RADIUS: each acceptance marks the accepted pixel opaque before any later
candidate is tested, so a later candidate within RADIUS of an accepted star
fails the proximity scan. -/
theorem stars_pairwise_isolated (W H : Int) (px : Int → Nat) (rng : Nat → Nat)
    (a b : Nat) (hab : a < b) (p q : XY)
    (hp : (GenerateStars W H px rng).1[a]? = some p)
    (hq : (GenerateStars W H px rng).1[b]? = some q) :
    RADIUS * RADIUS < (p.x - q.x) * (p.x - q.x) + (p.y - q.y) * (p.y - q.y) := by
  rw [gen_eq_append W H px rng] at hp hq
  rcases le_or_lt W 0 with hW | hW
  · exfalso
    have hnil : initStars W H = [] := initStars_eq_nil W H (Or.inl hW)
    unfold GenerateStarsAppend at hp
    rw [hnil] at hp
    simp [shuffle, fyAux] at hp
  rcases le_or_lt H 0 with hH | hH
  · exfalso
    have hnil : initStars W H = [] := initStars_eq_nil W H (Or.inr hH)
    unfold GenerateStarsAppend at hp
    rw [hnil] at hp
    simp [shuffle, fyAux] at hp
  have hcs : ∀ c ∈ shuffle rng (initStars W H), InBounds W H c := by
    intro c hcmem
    rcases mem_shuffle rng (initStars W H) c hcmem with h | h
    · exact initStars_mem_inBounds W H c h
    · subst h
      exact ⟨le_rfl, hW, le_rfl, hH⟩
  obtain ⟨-, -, hpw⟩ := accept_inv W H (shuffle rng (initStars W H)) ([], px) hcs
    (by intro p hp2; cases hp2) (by intro p hp2; cases hp2) List.Pairwise.nil
  unfold GenerateStarsAppend at hp hq
  rw [List.getElem?_eq_some_iff] at hp hq
  obtain ⟨ha2, hpe⟩ := hp
  obtain ⟨hb2, hqe⟩ := hq
  have hR := List.pairwise_iff_get.mp hpw ⟨a, ha2⟩ ⟨b, hb2⟩ (Fin.mk_lt_mk.mpr hab)
  rw [List.get_eq_getElem, List.get_eq_getElem] at hR
  rw [hpe, hqe] at hR
  exact hR

set_option maxRecDepth 8000 in
/-- C2 (witness): on a fully transparent 23×1 canvas with the all-zero rand
stream, generation accepts the stars (8,0) then (22,0); their squared distance
196 exceeds RADIUS² = 144. -/
theorem stars_pairwise_isolated_witness :
    (0 < 1 ∧
     (GenerateStars 23 1 (fun _ => 0) rngZero).1[0]? = some ⟨8, 0⟩ ∧
     (GenerateStars 23 1 (fun _ => 0) rngZero).1[1]? = some ⟨22, 0⟩) ∧
    RADIUS * RADIUS <
      ((8 : Int) - 22) * ((8 : Int) - 22) + ((0 : Int) - 0) * ((0 : Int) - 0) :=
  ⟨⟨by decide, by decide, by decide⟩,
   stars_pairwise_isolated 23 1 (fun _ => 0) rngZero 0 1 (by decide) ⟨8, 0⟩ ⟨22, 0⟩
     (by decide) (by decide)⟩

end Starfield
